import Mathlib

/-!
Verification of the ckv hierarchical key-value configuration engine
(`src/ckv.hpp`, class `ckv::ConfigFile`).

The repository ships only the header: it declares the parsing engine
(`out_block_parse`, `in_block_parse`), the flattener (`import_to_map`,
`get_value_for_key`), the mutator (`set_value_for_key`, `remove_key`)
and the error taxonomy (one exception class per error kind), but the
bodies of those methods are not part of the sources.  Every definition
below whose doc comment starts with "Modelled from the spec" therefore
embeds the design document's description of the missing body rather
than C++ code.  The `ConfigFile` constructor and the accessors
`get_err_line` / `get_file_path` are present in the header and are
embedded directly from it.

Lines of a ckv file are modelled as lists of characters (the content of
one line, without its trailing newline), exactly as delivered by the
line source described in the design document.
-/

namespace Ckv

/-- One line of text, without its trailing newline. -/
abbrev Line := List Char

/-- Closed error taxonomy of the engine, one constructor per exception
class of `ckv.hpp` (`FileOpenFailed`, `InvalidOutputStream`,
`InvalidCharacter`, `EqualToWithoutAKey`, `MissingEqualTo`,
`TrailingCharsAfterEqualTo`, `ValueWithoutAKey`, `KeyNotFound`,
`NoValueFoundForKey`).  `outOfFuel` is an artefact of the fuel-indexed
embedding of the recursive parser; it never arises when the parser is
run with its default fuel. -/
inductive CkvErr where
  | fileOpenFailed
  | invalidOutputStream
  | invalidCharacter (c : Char)
  | equalToWithoutAKey
  | missingEqualTo
  | trailingCharsAfterEqualTo
  | valueWithoutAKey
  | keyNotFound
  | noValueFoundForKey
  | outOfFuel
deriving DecidableEq, Repr

/-- Parse-level failure: the error kind together with the 1-based line
number it is tied to, 0 when the error is not tied to a line. -/
abbrev PErr := CkvErr × Nat

/-- Count of leading tab characters of a line (its indentation depth). -/
def countTabs : Line → Nat
  | [] => 0
  | c :: rest => if c = '\t' then countTabs rest + 1 else 0

/-- The payload of a line: everything after the leading tabs. -/
def dropTabs : Line → Line
  | [] => []
  | c :: rest => if c = '\t' then dropTabs rest else c :: rest

/-- Drop leading spaces. -/
def trimLeft (l : Line) : Line := l.dropWhile (fun c => c = ' ')

/-- Trim spaces from both ends of a token. -/
def trim (l : Line) : Line := (trimLeft (trimLeft l).reverse).reverse

/-- Split a payload at its first '=': returns the parts strictly before
and strictly after it, or `none` when the payload has no '='. -/
def splitAtEq : Line → Option (Line × Line)
  | [] => none
  | c :: rest =>
    if c = '=' then some ([], rest)
    else
      match splitAtEq rest with
      | some (a, b) => some (c :: a, b)
      | none => none

/-- Classification of a non-structural view of one payload. -/
inductive LineClass where
  | blank
  | noEq
  | opener (key : Line)
  | kv (key value : Line)
  | bad (e : CkvErr)
deriving DecidableEq, Repr

/-- Modelled from the spec: the tokenizer / line classifier (section
4.1).  The payload of a line is classified as blank (empty payload),
key-with-value, block opener (key with empty value), '=' with an empty
key token (`EqualToWithoutAKey`), a tab inside a key token
(`InvalidCharacter`), a tab inside a value token
(`TrailingCharsAfterEqualTo`), or a non-blank payload without '='
(`noEq`, resolved by the block parser to `ValueWithoutAKey` or
`MissingEqualTo`).  The C++ bodies that perform this classification are
declared in `ckv.hpp` but absent from the sources. -/
def classifyPayload (p : Line) : LineClass :=
  if p = [] then .blank
  else
    match splitAtEq p with
    | none => .noEq
    | some (before, after) =>
      let k := trim before
      let v := trim after
      if k = [] then .bad .equalToWithoutAKey
      else if k.any (fun c => c = '\t') then .bad (.invalidCharacter '\t')
      else if v = [] then .opener k
      else if v.any (fun c => c = '\t') then .bad .trailingCharsAfterEqualTo
      else .kv k v

mutual
/-- One node of the parsed hierarchy: a preserved blank line, a leaf
(key with scalar value) or a block (key with empty value and a nested
forest of children).  Every node keeps the raw source line it was
declared on (`raw`), its indentation depth in tabs (`indent`) and its
1-based source line number. -/
inductive Node where
  | blankN (raw : Line) (lineNo : Nat)
  | leafN (raw : Line) (indent : Nat) (key value : Line) (lineNo : Nat)
  | blockN (raw : Line) (indent : Nat) (key : Line) (children : Forest) (lineNo : Nat)

/-- An ordered sequence of sibling nodes. -/
inductive Forest where
  | nil
  | cons (hd : Node) (tl : Forest)
end

/-- Lines paired with their 1-based line numbers, starting at `i`. -/
def numberFrom (i : Nat) : List Line → List (Nat × Line)
  | [] => []
  | l :: ls => (i, l) :: numberFrom (i + 1) ls

/-- Modelled from the spec: the recursive block parser (section 4.2),
the body of `in_block_parse` declared in `ckv.hpp` but absent from the
sources.  `parse_block fuel depth seen ls` consumes the numbered lines
of one block: blank lines are consumed and preserved wherever they
occur; a line shallower than `depth` ends the block; a line deeper than
`depth` is a `ValueWithoutAKey` error; at exactly `depth`, a key with a
value is a leaf, a key with an empty value opens a nested block parsed
at `depth + 1`, and a payload without '=' fails (`ValueWithoutAKey`
when it is the first non-blank content of a depth-0 document, otherwise
`MissingEqualTo`).  The first structural error aborts the whole parse.
`fuel` bounds the recursion depth of the embedding; callers pass enough
of it that `outOfFuel` is unreachable. -/
def parse_block (fuel : Nat) (depth : Nat) (seen : Bool)
    (ls : List (Nat × Line)) : Except PErr (Forest × List (Nat × Line)) :=
  match fuel with
  | 0 => .error (.outOfFuel, 0)
  | fuel + 1 =>
    match ls with
    | [] => .ok (.nil, [])
    | (ln, s) :: rest =>
      if dropTabs s = [] then
        match parse_block fuel depth seen rest with
        | .error e => .error e
        | .ok (ns, r) => .ok (.cons (.blankN s ln) ns, r)
      else if countTabs s < depth then .ok (.nil, (ln, s) :: rest)
      else if depth < countTabs s then .error (.valueWithoutAKey, ln)
      else
        match classifyPayload (dropTabs s) with
        | .blank => .error (.outOfFuel, ln)
        | .bad e => .error (e, ln)
        | .noEq =>
          if depth = 0 && !seen then .error (.valueWithoutAKey, ln)
          else .error (.missingEqualTo, ln)
        | .opener k =>
          match parse_block fuel (depth + 1) true rest with
          | .error e => .error e
          | .ok (kids, r1) =>
            match parse_block fuel depth true r1 with
            | .error e => .error e
            | .ok (sibs, r2) =>
              .ok (.cons (.blockN s (countTabs s) k kids ln) sibs, r2)
        | .kv k v =>
          match parse_block fuel depth true rest with
          | .error e => .error e
          | .ok (sibs, r1) =>
            .ok (.cons (.leafN s (countTabs s) k v ln) sibs, r1)

/-- Modelled from the spec: the top-level parse (`out_block_parse`,
declared in `ckv.hpp` but absent from the sources): parse the whole
line sequence as the block at depth 0. -/
def out_block_parse (lines : List Line) : Except PErr Forest :=
  match parse_block (2 * lines.length + 2) 0 false (numberFrom 1 lines) with
  | .error e => .error e
  | .ok (ns, _) => .ok ns

/-- An indentation of `n` tabs. -/
def tabs (n : Nat) : Line := List.replicate n '\t'

mutual
/-- Modelled from the spec: re-serialization of one node (section 4.4).
Unmodified nodes re-emit their raw source lines byte-identically; a
block re-emits its own line followed by its children. -/
def serialize_node : Node → List Line
  | .blankN raw _ => [raw]
  | .leafN raw _ _ _ _ => [raw]
  | .blockN raw _ _ kids _ => raw :: serialize_forest kids

/-- Modelled from the spec: re-serialization of a forest of siblings,
in original order. -/
def serialize_forest : Forest → List Line
  | .nil => []
  | .cons n ns => serialize_node n ++ serialize_forest ns
end

/-- Join lines back into a byte stream, one trailing newline each. -/
def unlines : List Line → Line
  | [] => []
  | l :: ls => l ++ '\n' :: unlines ls

mutual
/-- Structural size of one node (used for induction). -/
def node_size : Node → Nat
  | .blankN _ _ => 1
  | .leafN _ _ _ _ _ => 1
  | .blockN _ _ _ kids _ => 1 + forest_size kids

/-- Structural size of a forest (used for induction). -/
def forest_size : Forest → Nat
  | .nil => 0
  | .cons n ns => node_size n + forest_size ns
end

mutual
/-- Parse invariant of one node: the recorded `indent` is the count of
leading tabs of the recorded raw line (so `tabs indent` is the line's
original indentation). -/
def raws_ok_n : Node → Prop
  | .blankN _ _ => True
  | .leafN raw ind _ _ _ => countTabs raw = ind
  | .blockN raw ind _ kids _ => countTabs raw = ind ∧ raws_ok_f kids

/-- Parse invariant of a forest. -/
def raws_ok_f : Forest → Prop
  | .nil => True
  | .cons n ns => raws_ok_n n ∧ raws_ok_f ns
end

/-- Shorthand for building a `Line` from a string literal. -/
def str (s : String) : Line := s.toList

/-- The full dotted path obtained by appending key segment `k` to the
dotted prefix `pref` (empty prefix at the top level). -/
def dotted (pref : Line) (k : Line) : Line :=
  if pref = [] then k else pref ++ '.' :: k

mutual
/-- Modelled from the spec: the leaf entries contributed by one node in
a depth-first traversal (section 4.3): a leaf contributes one
`(dotted path, value)` entry, a block contributes none of its own, a
blank line contributes none. -/
def node_entries (pref : Line) : Node → List (Line × Line)
  | .blankN _ _ => []
  | .leafN _ _ k v _ => [(dotted pref k, v)]
  | .blockN _ _ k kids _ => forest_entries (dotted pref k) kids

/-- Modelled from the spec: leaf entries of a forest, in document
(depth-first) order. -/
def forest_entries (pref : Line) : Forest → List (Line × Line)
  | .nil => []
  | .cons n ns => node_entries pref n ++ forest_entries pref ns
end

mutual
/-- The full dotted paths of the block nodes in one node's subtree, in
depth-first order. -/
def node_block_paths (pref : Line) : Node → List Line
  | .blankN _ _ => []
  | .leafN _ _ _ _ _ => []
  | .blockN _ _ k kids _ =>
    dotted pref k :: forest_block_paths (dotted pref k) kids

/-- The full dotted paths of the block nodes of a forest. -/
def forest_block_paths (pref : Line) : Forest → List Line
  | .nil => []
  | .cons n ns => node_block_paths pref n ++ forest_block_paths pref ns
end

/-- Every full dotted path of a node (leaf or block) of the document. -/
def all_node_paths (doc : Forest) : List Line :=
  (forest_entries [] doc).map Prod.fst ++ forest_block_paths [] doc

/-- The value of the last entry with key `k` in an entry list, `none`
when no entry has key `k`. -/
def find_last (l : List (Line × Line)) (k : Line) : Option Line :=
  match l with
  | [] => none
  | (k1, v1) :: rest =>
    match find_last rest k with
    | some v => some v
    | none => if k1 = k then some v1 else none

/-- Insert into an association map, overwriting the entry with the same
key in place when it exists (the overwrite an `unordered_map` indexed
store performs on duplicate keys). -/
def map_insert (m : List (Line × Line)) (k v : Line) : List (Line × Line) :=
  match m with
  | [] => [(k, v)]
  | (k1, v1) :: rest =>
    if k1 = k then (k, v) :: rest else (k1, v1) :: map_insert rest k v

/-- Lookup in an association map. -/
def map_lookup (m : List (Line × Line)) (k : Line) : Option Line :=
  match m with
  | [] => none
  | (k1, v1) :: rest => if k1 = k then some v1 else map_lookup rest k

/-- Modelled from the spec: the flattened map of a parsed document
(section 4.3): every leaf entry, in depth-first order, is inserted into
the map, so later duplicates overwrite earlier ones (last-wins) and no
duplicate-key error is raised.  The body of the C++ `import_to_map` is
declared in `ckv.hpp` but absent from the sources. -/
def doc_map (doc : Forest) : List (Line × Line) :=
  (forest_entries [] doc).foldl (fun m kv => map_insert m kv.1 kv.2) []

/-- Modelled from the spec: the public `import_to_map` operation:
re-parse the file content and flatten it (section 4.3). -/
def import_to_map (lines : List Line) : Except PErr (List (Line × Line)) :=
  match out_block_parse lines with
  | .error e => .error e
  | .ok doc => .ok (doc_map doc)

/-- Modelled from the spec: the public `get_value_for_key` operation
(section 4.3): parse, then look the dotted path up in the flattened-map
equivalent; a path carried by no node at all is `KeyNotFound`, a path
carried only by block nodes is `NoValueFoundForKey`, otherwise the
(last) leaf's stored value is returned.  Errors not tied to a line
carry line number 0. -/
def get_value_for_key (lines : List Line) (key : Line) : Except PErr Line :=
  match out_block_parse lines with
  | .error e => .error e
  | .ok doc =>
    match find_last (forest_entries [] doc) key with
    | some v => .ok v
    | none =>
      if key ∈ forest_block_paths [] doc then .error (.noValueFoundForKey, 0)
      else .error (.keyNotFound, 0)

/-- The parse-time data of one leaf node. -/
structure LeafInfo where
  raw : Line
  indent : Nat
  key : Line
  val : Line
  lineNo : Nat
deriving DecidableEq, Repr

mutual
/-- The last (in depth-first order) leaf of one node's subtree whose
full dotted path is `key`. -/
def last_leaf_node (pref key : Line) : Node → Option LeafInfo
  | .blankN _ _ => none
  | .leafN raw ind k v ln =>
    if dotted pref k = key then some ⟨raw, ind, k, v, ln⟩ else none
  | .blockN _ _ k kids _ => last_leaf_forest (dotted pref k) key kids

/-- The last (in depth-first order) leaf of a forest whose full dotted
path is `key`. -/
def last_leaf_forest (pref key : Line) : Forest → Option LeafInfo
  | .nil => none
  | .cons n ns =>
    match last_leaf_forest pref key ns with
    | some r => some r
    | none => last_leaf_node pref key n
end

/-- The canonical re-emission of a modified leaf line: its original
indentation, its key token, " = " and the new value (section 4.4). -/
def kv_line (ind : Nat) (k v : Line) : Line :=
  tabs ind ++ k ++ ' ' :: '=' :: ' ' :: v

mutual
/-- Modelled from the spec: replace, inside one node's subtree, the
value of the last leaf whose full path is `key` by `newv`, re-emitting
exactly that leaf's line canonically and leaving every other node (and
its raw line) untouched. -/
def set_last_node (pref key newv : Line) : Node → Node
  | .blankN raw ln => .blankN raw ln
  | .leafN raw ind k v ln =>
    if dotted pref k = key then .leafN (kv_line ind k newv) ind k newv ln
    else .leafN raw ind k v ln
  | .blockN raw ind k kids ln =>
    .blockN raw ind k (set_last_forest (dotted pref k) key newv kids) ln

/-- Modelled from the spec: replace the value of the last matching leaf
of a forest. -/
def set_last_forest (pref key newv : Line) : Forest → Forest
  | .nil => .nil
  | .cons n ns =>
    match last_leaf_forest pref key ns with
    | some _ => .cons n (set_last_forest pref key newv ns)
    | none => .cons (set_last_node pref key newv n) ns
end

/-- Modelled from the spec: the public `set_value_for_key` operation
(section 4.4): parse; when the path resolves to a leaf, replace its
value and re-serialize the whole document to the sink (failing with
`InvalidOutputStream` when the sink is unusable); when the path is
carried only by block nodes, fail with `NoValueFoundForKey`; when it is
carried by no node, fail with `KeyNotFound`. -/
def set_value_for_key (lines : List Line) (key newv : Line)
    (sink_ok : Bool) : Except PErr (List Line) :=
  match out_block_parse lines with
  | .error e => .error e
  | .ok doc =>
    match last_leaf_forest [] key doc with
    | some _ =>
      if sink_ok then .ok (serialize_forest (set_last_forest [] key newv doc))
      else .error (.invalidOutputStream, 0)
    | none =>
      if key ∈ forest_block_paths [] doc then .error (.noValueFoundForKey, 0)
      else .error (.keyNotFound, 0)

mutual
/-- The last (in depth-first order) node of one node's subtree whose
full dotted path is `key`; a block's descendants come after the block
itself in that order. -/
def last_node_at (pref key : Line) : Node → Option Node
  | .blankN _ _ => none
  | .leafN raw ind k v ln =>
    if dotted pref k = key then some (.leafN raw ind k v ln) else none
  | .blockN raw ind k kids ln =>
    match last_node_f (dotted pref k) key kids with
    | some r => some r
    | none =>
      if dotted pref k = key then some (.blockN raw ind k kids ln) else none

/-- The last (in depth-first order) node of a forest whose full dotted
path is `key`. -/
def last_node_f (pref key : Line) : Forest → Option Node
  | .nil => none
  | .cons n ns =>
    match last_node_f pref key ns with
    | some r => some r
    | none => last_node_at pref key n
end

/-- Tells whether the last match of `key` inside node `n` is a strict
descendant of `n` (only a block can contain one). -/
def node_desc_match (pref key : Line) : Node → Bool
  | .blockN _ _ k kids _ => (last_node_f (dotted pref k) key kids).isSome
  | _ => false

mutual
/-- Modelled from the spec: remove, from inside a block node, the last
descendant node whose full path is `key` (together with its own
subtree); other nodes keep their raw lines and order. -/
def remove_in_node (pref key : Line) : Node → Node
  | .blankN raw ln => .blankN raw ln
  | .leafN raw ind k v ln => .leafN raw ind k v ln
  | .blockN raw ind k kids ln =>
    .blockN raw ind k (remove_last_f (dotted pref k) key kids) ln

/-- Modelled from the spec: remove from a forest the last node whose
full dotted path is `key`, with its entire subtree, preserving the
order and content of every remaining node (section 4.4).  When the
last match lies in a later sibling, recurse there; when it is a strict
descendant of the head node, remove it inside the head; when it is the
head node itself, drop the head with its whole subtree. -/
def remove_last_f (pref key : Line) : Forest → Forest
  | .nil => .nil
  | .cons n ns =>
    if (last_node_f pref key ns).isSome = true then
      .cons n (remove_last_f pref key ns)
    else if node_desc_match pref key n = true then
      .cons (remove_in_node pref key n) ns
    else if (last_node_at pref key n).isSome = true then ns
    else .cons n ns
end

/-- Modelled from the spec: the public `remove_key` operation (section
4.4): parse; when the path is carried by no node, fail with
`KeyNotFound`; otherwise remove the located node and its entire subtree
and re-serialize the rest to the sink. -/
def remove_key (lines : List Line) (key : Line)
    (sink_ok : Bool) : Except PErr (List Line) :=
  match out_block_parse lines with
  | .error e => .error e
  | .ok doc =>
    match last_node_f [] key doc with
    | some _ =>
      if sink_ok then .ok (serialize_forest (remove_last_f [] key doc))
      else .error (.invalidOutputStream, 0)
    | none => .error (.keyNotFound, 0)

/-- Embedded from the source (`ckv.hpp`, class `ConfigFile`): the
object state is the bound path and the error-line member.  The C++
member `unsigned int err_line_no` receives no initializer anywhere in
the class and the constructor's initializer list sets only
`file_path`, so immediately after construction `err_line_no` holds an
indeterminate value; that indeterminate state is modelled as `none`,
and a determinate stored line number `n` as `some n`. -/
structure ConfigFile where
  file_path : String
  err_line_no : Option Nat

/-- Embedded from the source (`ckv.hpp` line 42):
`ConfigFile(std::string file_path) : file_path(file_path){}` — the
constructor stores the path and leaves `err_line_no` uninitialized. -/
def ConfigFile.construct (p : String) : ConfigFile :=
  { file_path := p, err_line_no := none }

/-- Embedded from the source (`ckv.hpp` lines 52-54): `get_err_line`
returns the stored `err_line_no` member. -/
def get_err_line (c : ConfigFile) : Option Nat := c.err_line_no

/-- Embedded from the source (`ckv.hpp` lines 59-61): `get_file_path`
returns the stored `file_path` member. -/
def get_file_path (c : ConfigFile) : String := c.file_path

/-- One public file-reading operation of the engine. -/
inductive Op where
  | opGet (key : Line)
  | opSet (key newv : Line) (sink_ok : Bool)
  | opRemove (key : Line) (sink_ok : Bool)
  | opImport
deriving DecidableEq, Repr

/-- The successful observable outcome of one operation. -/
inductive OpOut where
  | gotValue (v : Line)
  | wrote (out : List Line)
  | mapped (m : List (Line × Line))
deriving DecidableEq, Repr

/-- The cross-call state visible to the engine: the bound file's
content (`none` when the file cannot be opened) and the error-line
tracker. -/
structure FileState where
  contents : Option (List Line)
  err_line : Nat
deriving DecidableEq, Repr

/-- The line number an operation outcome leaves in the tracker: the
failing line of an error (0 for errors not tied to a line), 0 on
success. -/
def errLineOf {α : Type} : Except PErr α → Nat
  | .error (_, n) => n
  | .ok _ => 0

/-- Dispatch one operation against a file content. -/
def apply_op (ls : List Line) : Op → Except PErr OpOut
  | .opGet key => (get_value_for_key ls key).map .gotValue
  | .opSet key newv s => (set_value_for_key ls key newv s).map .wrote
  | .opRemove key s => (remove_key ls key s).map .wrote
  | .opImport => (import_to_map ls).map .mapped

/-- The file content after an operation: only a successful mutating
operation replaces it, in full. -/
def new_contents (old : List Line) : Except PErr OpOut → List Line
  | .ok (.wrote out) => out
  | _ => old

/-- Modelled from the spec: the per-call lifecycle of a public
operation (sections 3 and 5; the C++ bodies are declared in `ckv.hpp`
but absent from the sources).  A call re-parses the bound file's
content from scratch (failing with `FileOpenFailed` when it cannot be
opened), operates, rewrites the file in full only when a mutation
succeeded (read entire file, mutate in memory, rewrite), and
overwrites the error-line tracker with the current call's outcome: the
failing line number of a structural parse error, 0 otherwise.  The
tracker value left by any earlier call is never consulted. -/
def run_op (st : FileState) (op : Op) : FileState × Except PErr OpOut :=
  match st.contents with
  | none => ({ contents := none, err_line := 0 }, .error (.fileOpenFailed, 0))
  | some ls =>
    ({ contents := some (new_contents ls (apply_op ls op)),
       err_line := errLineOf (apply_op ls op) }, apply_op ls op)

theorem numberFrom_map_snd (i : Nat) (ls : List Line) :
    (numberFrom i ls).map Prod.snd = ls := by
  induction ls generalizing i with
  | nil => rfl
  | cons l ls ih => simp [numberFrom, ih]

theorem parse_block_append :
    ∀ (fuel depth : Nat) (seen : Bool) (ls : List (Nat × Line)) (ns : Forest)
      (r : List (Nat × Line)),
      parse_block fuel depth seen ls = .ok (ns, r) →
      serialize_forest ns ++ r.map Prod.snd = ls.map Prod.snd := by
  intro fuel
  induction fuel with
  | zero => intro d seen ls ns r h; simp [parse_block] at h
  | succ fuel ih =>
    intro d seen ls ns r h
    cases ls with
    | nil =>
      simp only [parse_block, Except.ok.injEq, Prod.mk.injEq] at h
      obtain ⟨h1, h2⟩ := h
      subst h1; subst h2
      simp [serialize_forest]
    | cons hd rest =>
      obtain ⟨ln, s⟩ := hd
      simp only [parse_block] at h
      split at h
      · -- blank line
        split at h
        · exact absurd h (by simp)
        next ns1 r1 heq =>
          simp only [Except.ok.injEq, Prod.mk.injEq] at h
          obtain ⟨h1, h2⟩ := h
          subst h1; subst h2
          have := ih d seen rest ns1 r1 heq
          simp [serialize_forest, serialize_node, this]
      · split at h
        · -- end of block
          simp only [Except.ok.injEq, Prod.mk.injEq] at h
          obtain ⟨h1, h2⟩ := h
          subst h1; subst h2
          simp [serialize_forest]
        · split at h
          · exact absurd h (by simp)
          · split at h
            · exact absurd h (by simp)
            · exact absurd h (by simp)
            · split at h <;> exact absurd h (by simp)
            next k hcl =>
              -- block opener
              split at h
              · exact absurd h (by simp)
              next kids r1 heq1 =>
                split at h
                · exact absurd h (by simp)
                next sibs r2 heq2 =>
                  simp only [Except.ok.injEq, Prod.mk.injEq] at h
                  obtain ⟨h1, h2⟩ := h
                  subst h1; subst h2
                  have e1 := ih (d + 1) true rest kids r1 heq1
                  have e2 := ih d true r1 sibs r2 heq2
                  simp [serialize_forest, serialize_node, List.append_assoc, e2, e1]
            next k v hcl =>
              -- leaf
              split at h
              · exact absurd h (by simp)
              next sibs r1 heq =>
                simp only [Except.ok.injEq, Prod.mk.injEq] at h
                obtain ⟨h1, h2⟩ := h
                subst h1; subst h2
                have e1 := ih d true rest sibs r1 heq
                simp [serialize_forest, serialize_node, e1]

theorem parse_block_zero_rest :
    ∀ (fuel : Nat) (seen : Bool) (ls : List (Nat × Line)) (ns : Forest)
      (r : List (Nat × Line)),
      parse_block fuel 0 seen ls = .ok (ns, r) → r = [] := by
  intro fuel
  induction fuel with
  | zero => intro seen ls ns r h; simp [parse_block] at h
  | succ fuel ih =>
    intro seen ls ns r h
    cases ls with
    | nil =>
      simp only [parse_block, Except.ok.injEq, Prod.mk.injEq] at h
      exact h.2.symm
    | cons hd rest =>
      obtain ⟨ln, s⟩ := hd
      simp only [parse_block] at h
      split at h
      · split at h
        · exact absurd h (by simp)
        next ns1 r1 heq =>
          simp only [Except.ok.injEq, Prod.mk.injEq] at h
          rw [← h.2]
          exact ih seen rest ns1 r1 heq
      · split at h
        next hlt => exact absurd hlt (by omega)
        · split at h
          · exact absurd h (by simp)
          · split at h
            · exact absurd h (by simp)
            · exact absurd h (by simp)
            · split at h <;> exact absurd h (by simp)
            next k hcl =>
              split at h
              · exact absurd h (by simp)
              next kids r1 heq1 =>
                split at h
                · exact absurd h (by simp)
                next sibs r2 heq2 =>
                  simp only [Except.ok.injEq, Prod.mk.injEq] at h
                  rw [← h.2]
                  exact ih true r1 sibs r2 heq2
            next k v hcl =>
              split at h
              · exact absurd h (by simp)
              next sibs r1 heq =>
                simp only [Except.ok.injEq, Prod.mk.injEq] at h
                rw [← h.2]
                exact ih true rest sibs r1 heq

/-- Round-trip of the engine: a successful top-level parse yields a
document whose unmodified re-serialization is the original line
sequence. -/
theorem out_parse_serialize (lines : List Line) (doc : Forest)
    (h : out_block_parse lines = .ok doc) :
    serialize_forest doc = lines := by
  unfold out_block_parse at h
  split at h
  · exact absurd h (by simp)
  next ns r heq =>
    simp only [Except.ok.injEq] at h
    subst h
    have hr : r = [] := parse_block_zero_rest _ _ _ _ _ heq
    have happ := parse_block_append _ _ _ _ _ _ heq
    rw [hr] at happ
    simpa [numberFrom_map_snd] using happ

theorem find_last_append (a b : List (Line × Line)) (k : Line) :
    find_last (a ++ b) k =
      match find_last b k with
      | some v => some v
      | none => find_last a k := by
  induction a with
  | nil =>
    simp only [List.nil_append, find_last]
    cases find_last b k <;> rfl
  | cons hd rest ih =>
    obtain ⟨k1, v1⟩ := hd
    simp only [List.cons_append, find_last, List.append_eq]
    rw [ih]
    cases hb : find_last b k <;> cases hr : find_last rest k <;> simp

theorem find_last_none_iff (l : List (Line × Line)) (k : Line) :
    find_last l k = none ↔ k ∉ l.map Prod.fst := by
  induction l with
  | nil => simp [find_last]
  | cons hd rest ih =>
    obtain ⟨k1, v1⟩ := hd
    simp only [find_last, List.map_cons, List.mem_cons]
    constructor
    · intro h0
      cases h : find_last rest k with
      | some v => rw [h] at h0; exact absurd h0 (by simp)
      | none =>
        rw [h] at h0
        have hk1 : ¬ k1 = k := by
          intro he
          rw [if_pos he] at h0
          exact absurd h0 (by simp)
        intro hmem
        rcases hmem with he | hm
        · exact hk1 he.symm
        · exact (ih.mp h) hm
    · intro hmem
      have hk1 : ¬ k1 = k := fun he => hmem (Or.inl he.symm)
      have hr : k ∉ rest.map Prod.fst := fun hm => hmem (Or.inr hm)
      rw [ih.mpr hr]
      show (if k1 = k then some v1 else none) = none
      rw [if_neg hk1]

theorem map_lookup_insert (m : List (Line × Line)) (k v k1 : Line) :
    map_lookup (map_insert m k v) k1 =
      if k = k1 then some v else map_lookup m k1 := by
  induction m with
  | nil =>
    simp only [map_insert, map_lookup]
  | cons hd rest ih =>
    obtain ⟨k2, v2⟩ := hd
    by_cases h2 : k2 = k
    · subst h2
      simp only [map_insert, if_pos rfl, map_lookup]
      by_cases hk : k2 = k1
      · simp [hk, map_lookup]
      · simp [hk, map_lookup]
    · simp only [map_insert, if_neg h2, map_lookup, ih]
      by_cases hk : k2 = k1
      · subst hk
        have hne : ¬ k = k2 := fun he => h2 he.symm
        simp [hne]
      · simp [hk]

theorem map_insert_keys (m : List (Line × Line)) (k v : Line) :
    (map_insert m k v).map Prod.fst =
      if k ∈ m.map Prod.fst then m.map Prod.fst
      else m.map Prod.fst ++ [k] := by
  induction m with
  | nil => simp [map_insert]
  | cons hd rest ih =>
    obtain ⟨k2, v2⟩ := hd
    by_cases h2 : k2 = k
    · subst h2
      simp [map_insert]
    · simp only [map_insert, if_neg h2, List.map_cons, ih, List.mem_cons]
      have hne : ¬ k = k2 := fun he => h2 he.symm
      by_cases hk : k ∈ rest.map Prod.fst
      · simp [hk, hne]
      · simp [hk, hne]

theorem map_insert_keys_nodup (m : List (Line × Line)) (k v : Line)
    (h : (m.map Prod.fst).Nodup) :
    ((map_insert m k v).map Prod.fst).Nodup := by
  rw [map_insert_keys]
  split
  · exact h
  next hmem =>
    rw [List.nodup_append]
    exact ⟨h, List.nodup_singleton k, by simpa using hmem⟩

theorem foldl_insert_lookup (l : List (Line × Line)) :
    ∀ (m : List (Line × Line)) (k : Line),
      map_lookup (l.foldl (fun m kv => map_insert m kv.1 kv.2) m) k =
        match find_last l k with
        | some v => some v
        | none => map_lookup m k := by
  induction l with
  | nil => intro m k; simp [find_last]
  | cons hd rest ih =>
    intro m k
    obtain ⟨k1, v1⟩ := hd
    simp only [List.foldl_cons, find_last, ih, map_lookup_insert]
    cases find_last rest k with
    | some v => simp
    | none =>
      by_cases hk : k1 = k <;> simp [hk]

theorem foldl_insert_keys_nodup (l : List (Line × Line)) :
    ∀ (m : List (Line × Line)), (m.map Prod.fst).Nodup →
      ((l.foldl (fun m kv => map_insert m kv.1 kv.2) m).map Prod.fst).Nodup := by
  induction l with
  | nil => intro m h; exact h
  | cons hd rest ih =>
    intro m h
    exact ih _ (map_insert_keys_nodup _ _ _ h)

theorem doc_map_lookup (doc : Forest) (k : Line) :
    map_lookup (doc_map doc) k = find_last (forest_entries [] doc) k := by
  unfold doc_map
  rw [foldl_insert_lookup]
  cases find_last (forest_entries [] doc) k <;> rfl

theorem doc_map_keys_nodup (doc : Forest) :
    ((doc_map doc).map Prod.fst).Nodup :=
  foldl_insert_keys_nodup _ [] (by simp)

theorem get_append_right (a b : List Line) (i : Nat) :
    (a ++ b)[a.length + i]? = b[i]? := by
  induction a with
  | nil => simp
  | cons hd t ih =>
    rw [List.cons_append, List.length_cons, Nat.add_right_comm,
      List.getElem?_cons_succ]
    exact ih

theorem get_append_left (a b : List Line) (i : Nat) (h : i < a.length) :
    (a ++ b)[i]? = a[i]? := by
  induction a generalizing i with
  | nil => simp at h
  | cons hd t ih =>
    cases i with
    | zero => simp
    | succ j =>
      rw [List.cons_append, List.getElem?_cons_succ, List.getElem?_cons_succ]
      exact ih j (by simpa using h)

theorem set_append_right (a b : List Line) (i : Nat) (x : Line) :
    (a ++ b).set (a.length + i) x = a ++ b.set i x := by
  induction a with
  | nil => simp
  | cons hd t ih =>
    rw [List.cons_append, List.length_cons, Nat.add_right_comm]
    simp only [List.set_cons_succ, ih, List.cons_append]

theorem set_append_left (a b : List Line) (i : Nat) (x : Line)
    (h : i < a.length) :
    (a ++ b).set i x = a.set i x ++ b := by
  induction a generalizing i with
  | nil => simp at h
  | cons hd t ih =>
    cases i with
    | zero => simp
    | succ j =>
      rw [List.cons_append, List.set_cons_succ, List.set_cons_succ,
        ih j (by simpa using h), List.cons_append]

theorem set_self_of_get (l : List Line) :
    ∀ (i : Nat) (x : Line), l[i]? = some x → l.set i x = l := by
  induction l with
  | nil => intro i x h; simp at h
  | cons hd t ih =>
    intro i x h
    cases i with
    | zero =>
      simp only [List.getElem?_cons_zero, Option.some.injEq] at h
      simp [h]
    | succ j =>
      simp only [List.getElem?_cons_succ] at h
      simp [List.set_cons_succ, ih j x h]

mutual
theorem last_leaf_node_entries : ∀ (n : Node) (pref key : Line),
    Option.map LeafInfo.val (last_leaf_node pref key n) =
      find_last (node_entries pref n) key :=
  fun n =>
  match n with
  | .blankN raw ln => fun pref key => rfl
  | .leafN raw ind k v ln => by
    intro pref key
    simp only [last_leaf_node, node_entries, find_last]
    by_cases h : dotted pref k = key
    · simp [h]
    · simp [h]
  | .blockN raw ind k kids ln => by
    intro pref key
    simp only [last_leaf_node, node_entries]
    exact last_leaf_forest_entries kids (dotted pref k) key

theorem last_leaf_forest_entries : ∀ (f : Forest) (pref key : Line),
    Option.map LeafInfo.val (last_leaf_forest pref key f) =
      find_last (forest_entries pref f) key :=
  fun f =>
  match f with
  | .nil => fun pref key => rfl
  | .cons n ns => by
    intro pref key
    simp only [last_leaf_forest, forest_entries]
    rw [find_last_append, ← last_leaf_forest_entries ns pref key,
      ← last_leaf_node_entries n pref key]
    cases last_leaf_forest pref key ns <;> simp
end

theorem last_leaf_forest_isSome (f : Forest) (pref key : Line) :
    (last_leaf_forest pref key f).isSome = true ↔
      key ∈ (forest_entries pref f).map Prod.fst := by
  have hnn : (key ∈ (forest_entries pref f).map Prod.fst) ↔
      ¬ (key ∉ (forest_entries pref f).map Prod.fst) :=
    (Decidable.not_not).symm
  rw [hnn, ← find_last_none_iff, ← last_leaf_forest_entries]
  cases last_leaf_forest pref key f <;> simp

mutual
theorem last_node_at_mem : ∀ (n : Node) (pref key : Line),
    (last_node_at pref key n).isSome = true ↔
      key ∈ (node_entries pref n).map Prod.fst ∨
        key ∈ node_block_paths pref n :=
  fun n =>
  match n with
  | .blankN raw ln => by
    intro pref key
    simp [last_node_at, node_entries, node_block_paths]
  | .leafN raw ind k v ln => by
    intro pref key
    simp only [last_node_at, node_entries, node_block_paths, List.map_cons,
      List.map_nil]
    by_cases h : dotted pref k = key
    · simp [h]
    · simp only [if_neg h, Option.isSome_none, Bool.false_eq_true, false_iff]
      simp only [List.mem_singleton, List.not_mem_nil, or_false]
      exact fun he => h he.symm
  | .blockN raw ind k kids ln => by
    intro pref key
    simp only [last_node_at, node_entries, node_block_paths, List.mem_cons]
    cases hk : last_node_f (dotted pref k) key kids with
    | some r =>
      have hkids := last_node_f_mem kids (dotted pref k) key
      rw [hk] at hkids
      simp only [Option.isSome_some, true_iff] at hkids
      simp only [Option.isSome_some, true_iff]
      tauto
    | none =>
      have hkids := last_node_f_mem kids (dotted pref k) key
      rw [hk] at hkids
      simp only [Option.isSome_none, Bool.false_eq_true, false_iff] at hkids
      by_cases h : dotted pref k = key
      · simp only [if_pos h, Option.isSome_some, true_iff]
        tauto
      · simp only [if_neg h, Option.isSome_none, Bool.false_eq_true, false_iff]
        have hne : ¬ key = dotted pref k := fun he => h he.symm
        tauto

theorem last_node_f_mem : ∀ (f : Forest) (pref key : Line),
    (last_node_f pref key f).isSome = true ↔
      key ∈ (forest_entries pref f).map Prod.fst ∨
        key ∈ forest_block_paths pref f :=
  fun f =>
  match f with
  | .nil => by
    intro pref key
    simp [last_node_f, forest_entries, forest_block_paths]
  | .cons n ns => by
    intro pref key
    simp only [last_node_f, forest_entries, forest_block_paths,
      List.map_append, List.mem_append]
    cases hk : last_node_f pref key ns with
    | some r =>
      have hns := last_node_f_mem ns pref key
      rw [hk] at hns
      simp only [Option.isSome_some, true_iff] at hns
      simp only [Option.isSome_some, true_iff]
      tauto
    | none =>
      have hns := last_node_f_mem ns pref key
      rw [hk] at hns
      simp only [Option.isSome_none, Bool.false_eq_true, false_iff] at hns
      rw [last_node_at_mem n pref key]
      tauto
end

theorem parse_block_raws :
    ∀ (fuel depth : Nat) (seen : Bool) (ls : List (Nat × Line)) (ns : Forest)
      (r : List (Nat × Line)),
      parse_block fuel depth seen ls = .ok (ns, r) → raws_ok_f ns := by
  intro fuel
  induction fuel with
  | zero => intro d seen ls ns r h; simp [parse_block] at h
  | succ fuel ih =>
    intro d seen ls ns r h
    cases ls with
    | nil =>
      simp only [parse_block, Except.ok.injEq, Prod.mk.injEq] at h
      rw [← h.1]
      simp [raws_ok_f]
    | cons hd rest =>
      obtain ⟨ln, s⟩ := hd
      simp only [parse_block] at h
      split at h
      · split at h
        · exact absurd h (by simp)
        next ns1 r1 heq =>
          simp only [Except.ok.injEq, Prod.mk.injEq] at h
          rw [← h.1]
          exact ⟨trivial, ih d seen rest ns1 r1 heq⟩
      · split at h
        · simp only [Except.ok.injEq, Prod.mk.injEq] at h
          rw [← h.1]
          simp [raws_ok_f]
        · split at h
          · exact absurd h (by simp)
          · split at h
            · exact absurd h (by simp)
            · exact absurd h (by simp)
            · split at h <;> exact absurd h (by simp)
            next k hcl =>
              split at h
              · exact absurd h (by simp)
              next kids r1 heq1 =>
                split at h
                · exact absurd h (by simp)
                next sibs r2 heq2 =>
                  simp only [Except.ok.injEq, Prod.mk.injEq] at h
                  rw [← h.1]
                  exact ⟨⟨rfl, ih (d + 1) true rest kids r1 heq1⟩,
                    ih d true r1 sibs r2 heq2⟩
            next k v hcl =>
              split at h
              · exact absurd h (by simp)
              next sibs r1 heq =>
                simp only [Except.ok.injEq, Prod.mk.injEq] at h
                rw [← h.1]
                exact ⟨rfl, ih d true rest sibs r1 heq⟩

theorem out_block_parse_raws (lines : List Line) (doc : Forest)
    (h : out_block_parse lines = .ok doc) : raws_ok_f doc := by
  unfold out_block_parse at h
  split at h
  · exact absurd h (by simp)
  next ns r heq =>
    simp only [Except.ok.injEq] at h
    subst h
    exact parse_block_raws _ _ _ _ _ _ heq

mutual
theorem last_leaf_node_raws : ∀ (n : Node) (pref key : Line)
    (info : LeafInfo), raws_ok_n n → last_leaf_node pref key n = some info →
    countTabs info.raw = info.indent :=
  fun n =>
  match n with
  | .blankN raw ln => by
    intro pref key info hw h
    simp [last_leaf_node] at h
  | .leafN raw ind k v ln => by
    intro pref key info hw h
    simp only [last_leaf_node] at h
    split at h
    · simp only [Option.some.injEq] at h
      rw [← h]
      exact hw
    · simp at h
  | .blockN raw ind k kids ln => by
    intro pref key info hw h
    simp only [last_leaf_node] at h
    exact last_leaf_forest_raws kids (dotted pref k) key info hw.2 h

theorem last_leaf_forest_raws : ∀ (f : Forest) (pref key : Line)
    (info : LeafInfo), raws_ok_f f → last_leaf_forest pref key f = some info →
    countTabs info.raw = info.indent :=
  fun f =>
  match f with
  | .nil => by
    intro pref key info hw h
    simp [last_leaf_forest] at h
  | .cons n ns => by
    intro pref key info hw h
    simp only [last_leaf_forest] at h
    cases hns : last_leaf_forest pref key ns with
    | some r =>
      rw [hns] at h
      simp only [Option.some.injEq] at h
      rw [← h]
      exact last_leaf_forest_raws ns pref key r hw.2 hns
    | none =>
      rw [hns] at h
      exact last_leaf_node_raws n pref key info hw.1 h
end

theorem get_lt (l : List Line) :
    ∀ (i : Nat) (x : Line), l[i]? = some x → i < l.length := by
  induction l with
  | nil => intro i x h; simp at h
  | cons hd t ih =>
    intro i x h
    cases i with
    | zero => simp
    | succ j =>
      simp only [List.getElem?_cons_succ] at h
      simpa using ih j x h

mutual
theorem set_last_node_ser : ∀ (n : Node) (pref key newv : Line)
    (info : LeafInfo), last_leaf_node pref key n = some info →
    ∃ i, (serialize_node n)[i]? = some info.raw ∧
      serialize_node (set_last_node pref key newv n) =
        (serialize_node n).set i (kv_line info.indent info.key newv) :=
  fun n =>
  match n with
  | .blankN raw ln => by
    intro pref key newv info h
    simp [last_leaf_node] at h
  | .leafN raw ind k v ln => by
    intro pref key newv info h
    simp only [last_leaf_node] at h
    split at h
    next hc =>
      simp only [Option.some.injEq] at h
      rw [← h]
      refine ⟨0, by simp [serialize_node], ?_⟩
      simp [serialize_node, set_last_node, if_pos hc]
    · simp at h
  | .blockN raw ind k kids ln => by
    intro pref key newv info h
    simp only [last_leaf_node] at h
    obtain ⟨i, hget, hset⟩ :=
      set_last_forest_ser kids (dotted pref k) key newv info h
    refine ⟨i + 1, ?_, ?_⟩
    · simpa [serialize_node] using hget
    · simp [serialize_node, set_last_node, List.set_cons_succ, hset]

theorem set_last_forest_ser : ∀ (f : Forest) (pref key newv : Line)
    (info : LeafInfo), last_leaf_forest pref key f = some info →
    ∃ i, (serialize_forest f)[i]? = some info.raw ∧
      serialize_forest (set_last_forest pref key newv f) =
        (serialize_forest f).set i (kv_line info.indent info.key newv) :=
  fun f =>
  match f with
  | .nil => by
    intro pref key newv info h
    simp [last_leaf_forest] at h
  | .cons n ns => by
    intro pref key newv info h
    simp only [last_leaf_forest] at h
    cases hns : last_leaf_forest pref key ns with
    | some r =>
      rw [hns] at h
      simp only [Option.some.injEq] at h
      subst h
      obtain ⟨i, hget, hset⟩ :=
        set_last_forest_ser ns pref key newv r hns
      refine ⟨(serialize_node n).length + i, ?_, ?_⟩
      · rw [serialize_forest, get_append_right]
        exact hget
      · simp only [serialize_forest, set_last_forest, hns]
        rw [set_append_right, hset]
    | none =>
      rw [hns] at h
      obtain ⟨i, hget, hset⟩ := set_last_node_ser n pref key newv info h
      have hlt : i < (serialize_node n).length := get_lt _ i _ hget
      refine ⟨i, ?_, ?_⟩
      · rw [serialize_forest, get_append_left _ _ i hlt]
        exact hget
      · simp only [serialize_forest, set_last_forest, hns]
        rw [set_append_left _ _ i _ hlt, hset]
end

theorem node_size_pos : ∀ n : Node, 1 ≤ node_size n := by
  intro n
  cases n <;> simp [node_size]

theorem remove_last_f_cons_later (pref key : Line) (n : Node) (ns : Forest)
    (r : Node) (h : last_node_f pref key ns = some r) :
    remove_last_f pref key (.cons n ns) =
      .cons n (remove_last_f pref key ns) := by
  simp [remove_last_f, h]

theorem remove_last_f_cons_leaf (pref key : Line) (raw : Line) (ind : Nat)
    (k v : Line) (ln : Nat) (ns : Forest)
    (hns : last_node_f pref key ns = none) (hc : dotted pref k = key) :
    remove_last_f pref key (.cons (.leafN raw ind k v ln) ns) = ns := by
  simp [remove_last_f, hns, node_desc_match, last_node_at, hc]

theorem remove_last_f_cons_block_in (pref key : Line) (raw : Line)
    (ind : Nat) (k : Line) (kids : Forest) (ln : Nat) (ns : Forest)
    (r : Node) (hns : last_node_f pref key ns = none)
    (hkids : last_node_f (dotted pref k) key kids = some r) :
    remove_last_f pref key (.cons (.blockN raw ind k kids ln) ns) =
      .cons (.blockN raw ind k (remove_last_f (dotted pref k) key kids) ln)
        ns := by
  simp [remove_last_f, hns, node_desc_match, hkids, remove_in_node]

theorem remove_last_f_cons_block_self (pref key : Line) (raw : Line)
    (ind : Nat) (k : Line) (kids : Forest) (ln : Nat) (ns : Forest)
    (hns : last_node_f pref key ns = none)
    (hkids : last_node_f (dotted pref k) key kids = none)
    (hc : dotted pref k = key) :
    remove_last_f pref key (.cons (.blockN raw ind k kids ln) ns) = ns := by
  rw [hc] at hkids
  simp [remove_last_f, hns, node_desc_match, last_node_at, hc, hkids]

theorem remove_last_f_ser_aux : ∀ (b : Nat) (f : Forest),
    forest_size f ≤ b → ∀ (pref key : Line) (t : Node),
    last_node_f pref key f = some t →
    ∃ pre post, serialize_forest f = pre ++ serialize_node t ++ post ∧
      serialize_forest (remove_last_f pref key f) = pre ++ post := by
  intro b
  induction b with
  | zero =>
    intro f hsz pref key t h
    cases f with
    | nil => simp [last_node_f] at h
    | cons n ns =>
      exfalso
      have := node_size_pos n
      simp only [forest_size] at hsz
      omega
  | succ b ih =>
    intro f hsz pref key t h
    cases f with
    | nil => simp [last_node_f] at h
    | cons n ns =>
      have hszn := node_size_pos n
      simp only [forest_size] at hsz
      simp only [last_node_f] at h
      cases hns : last_node_f pref key ns with
      | some r =>
        simp only [hns, Option.some.injEq] at h
        subst h
        obtain ⟨pre, post, hdec, hrem⟩ := ih ns (by omega) pref key r hns
        refine ⟨serialize_node n ++ pre, post, ?_, ?_⟩
        · simp [serialize_forest, hdec]
        · rw [remove_last_f_cons_later pref key n ns r hns]
          simp [serialize_forest, hrem]
      | none =>
        simp only [hns] at h
        cases n with
        | blankN raw ln => simp [last_node_at] at h
        | leafN raw ind k v ln =>
          simp only [last_node_at] at h
          split at h
          next hc =>
            simp only [Option.some.injEq] at h
            refine ⟨[], serialize_forest ns, ?_, ?_⟩
            · rw [← h]
              simp [serialize_forest, serialize_node]
            · rw [remove_last_f_cons_leaf pref key raw ind k v ln ns hns hc]
              simp
          · simp at h
        | blockN raw ind k kids ln =>
          simp only [last_node_at] at h
          cases hkids : last_node_f (dotted pref k) key kids with
          | some r =>
            simp only [hkids, Option.some.injEq] at h
            subst h
            have hks : forest_size kids ≤ b := by
              simp only [node_size] at hszn hsz
              omega
            obtain ⟨pre, post, hdec, hrem⟩ :=
              ih kids hks (dotted pref k) key r hkids
            refine ⟨raw :: pre, post ++ serialize_forest ns, ?_, ?_⟩
            · simp [serialize_forest, serialize_node, hdec]
            · rw [remove_last_f_cons_block_in pref key raw ind k kids ln ns
                r hns hkids]
              simp [serialize_forest, serialize_node, hrem]
          | none =>
            simp only [hkids] at h
            split at h
            next hc =>
              simp only [Option.some.injEq] at h
              refine ⟨[], serialize_forest ns, ?_, ?_⟩
              · rw [← h]
                simp [serialize_forest]
              · rw [remove_last_f_cons_block_self pref key raw ind k kids ln
                  ns hns hkids hc]
                simp
            · simp at h

theorem remove_last_f_ser (f : Forest) (pref key : Line) (t : Node)
    (h : last_node_f pref key f = some t) :
    ∃ pre post, serialize_forest f = pre ++ serialize_node t ++ post ∧
      serialize_forest (remove_last_f pref key f) = pre ++ post :=
  remove_last_f_ser_aux (forest_size f) f (Nat.le_refl _) pref key t h

theorem classifyPayload_bad (p : Line) (e : CkvErr)
    (h : classifyPayload p = .bad e) :
    e = .equalToWithoutAKey ∨ e = .invalidCharacter '\t' ∨
      e = .trailingCharsAfterEqualTo := by
  simp only [classifyPayload] at h
  split at h
  · simp at h
  · split at h
    · simp at h
    · split at h
      · simp only [LineClass.bad.injEq] at h
        exact Or.inl h.symm
      · split at h
        · simp only [LineClass.bad.injEq] at h
          exact Or.inr (Or.inl h.symm)
        · split at h
          · simp at h
          · split at h
            · simp only [LineClass.bad.injEq] at h
              exact Or.inr (Or.inr h.symm)
            · simp at h

theorem parse_block_err_kinds :
    ∀ (fuel depth : Nat) (seen : Bool) (ls : List (Nat × Line))
      (e : CkvErr) (n : Nat),
      parse_block fuel depth seen ls = .error (e, n) →
      e ≠ .fileOpenFailed ∧ e ≠ .invalidOutputStream ∧ e ≠ .keyNotFound ∧
        e ≠ .noValueFoundForKey := by
  intro fuel
  induction fuel with
  | zero =>
    intro d seen ls e n h
    simp only [parse_block, Except.error.injEq, Prod.mk.injEq] at h
    rw [← h.1]
    simp
  | succ fuel ih =>
    intro d seen ls e n h
    cases ls with
    | nil => simp [parse_block] at h
    | cons hd rest =>
      obtain ⟨ln, s⟩ := hd
      simp only [parse_block] at h
      split at h
      · split at h
        next e1 heq =>
          simp only [Except.error.injEq] at h
          subst h
          exact ih d seen rest e n heq
        · simp at h
      · split at h
        · simp at h
        · split at h
          next hdep =>
            simp only [Except.error.injEq, Prod.mk.injEq] at h
            rw [← h.1]
            simp
          · split at h
            · simp only [Except.error.injEq, Prod.mk.injEq] at h
              rw [← h.1]
              simp
            next e1 hcl =>
              simp only [Except.error.injEq, Prod.mk.injEq] at h
              rw [← h.1]
              rcases classifyPayload_bad _ _ hcl with h1 | h1 | h1 <;>
                (subst h1; simp)
            · split at h <;>
                (simp only [Except.error.injEq, Prod.mk.injEq] at h;
                 rw [← h.1]; simp)
            next k hcl =>
              split at h
              next e1 heq =>
                simp only [Except.error.injEq] at h
                subst h
                exact ih (d + 1) true rest e n heq
              next kids r1 heq1 =>
                split at h
                next e1 heq2 =>
                  simp only [Except.error.injEq] at h
                  subst h
                  exact ih d true r1 e n heq2
                · simp at h
            next k v hcl =>
              split at h
              next e1 heq =>
                simp only [Except.error.injEq] at h
                subst h
                exact ih d true rest e n heq
              · simp at h

theorem out_block_parse_err_kinds (lines : List Line) (e : CkvErr) (n : Nat)
    (h : out_block_parse lines = .error (e, n)) :
    e ≠ .fileOpenFailed ∧ e ≠ .invalidOutputStream ∧ e ≠ .keyNotFound ∧
      e ≠ .noValueFoundForKey := by
  unfold out_block_parse at h
  split at h
  next e1 heq =>
    simp only [Except.error.injEq] at h
    subst h
    exact parse_block_err_kinds _ _ _ _ _ _ heq
  · simp at h

theorem ops_parse_error (ls : List Line) (key newv : Line) (s : Bool)
    (e : PErr) (h : out_block_parse ls = .error e) :
    get_value_for_key ls key = .error e ∧
      set_value_for_key ls key newv s = .error e ∧
      remove_key ls key s = .error e ∧
      import_to_map ls = .error e := by
  refine ⟨?_, ?_, ?_, ?_⟩ <;>
    simp [get_value_for_key, set_value_for_key, remove_key, import_to_map, h]

theorem get_value_err_zero (ls : List Line) (key : Line) (e : CkvErr)
    (n : Nat) (h : get_value_for_key ls key = .error (e, n))
    (hk : e = .fileOpenFailed ∨ e = .invalidOutputStream ∨ e = .keyNotFound) :
    n = 0 := by
  unfold get_value_for_key at h
  split at h
  next e1 heq =>
    simp only [Except.error.injEq] at h
    subst h
    have := out_block_parse_err_kinds ls e n heq
    tauto
  · split at h
    · simp at h
    · split at h <;>
        (simp only [Except.error.injEq, Prod.mk.injEq] at h; exact h.2.symm)

theorem set_value_err_zero (ls : List Line) (key newv : Line) (s : Bool)
    (e : CkvErr) (n : Nat)
    (h : set_value_for_key ls key newv s = .error (e, n))
    (hk : e = .fileOpenFailed ∨ e = .invalidOutputStream ∨ e = .keyNotFound) :
    n = 0 := by
  unfold set_value_for_key at h
  split at h
  next e1 heq =>
    simp only [Except.error.injEq] at h
    subst h
    have := out_block_parse_err_kinds ls e n heq
    tauto
  · split at h
    · split at h
      · simp at h
      · simp only [Except.error.injEq, Prod.mk.injEq] at h
        exact h.2.symm
    · split at h <;>
        (simp only [Except.error.injEq, Prod.mk.injEq] at h; exact h.2.symm)

theorem remove_key_err_zero (ls : List Line) (key : Line) (s : Bool)
    (e : CkvErr) (n : Nat) (h : remove_key ls key s = .error (e, n))
    (hk : e = .fileOpenFailed ∨ e = .invalidOutputStream ∨ e = .keyNotFound) :
    n = 0 := by
  unfold remove_key at h
  split at h
  next e1 heq =>
    simp only [Except.error.injEq] at h
    subst h
    have := out_block_parse_err_kinds ls e n heq
    tauto
  · split at h
    · split at h
      · simp at h
      · simp only [Except.error.injEq, Prod.mk.injEq] at h
        exact h.2.symm
    · simp only [Except.error.injEq, Prod.mk.injEq] at h
      exact h.2.symm

theorem import_err_zero (ls : List Line) (e : CkvErr) (n : Nat)
    (h : import_to_map ls = .error (e, n))
    (hk : e = .fileOpenFailed ∨ e = .invalidOutputStream ∨ e = .keyNotFound) :
    n = 0 := by
  unfold import_to_map at h
  split at h
  next e1 heq =>
    simp only [Except.error.injEq] at h
    subst h
    have := out_block_parse_err_kinds ls e n heq
    tauto
  · simp at h

theorem apply_op_err_zero (ls : List Line) (op : Op) (e : CkvErr) (n : Nat)
    (h : apply_op ls op = .error (e, n))
    (hk : e = .fileOpenFailed ∨ e = .invalidOutputStream ∨ e = .keyNotFound) :
    n = 0 := by
  cases op with
  | opGet key =>
    simp only [apply_op] at h
    cases hg : get_value_for_key ls key with
    | error e1 =>
      rw [hg] at h
      simp only [Except.map, Except.error.injEq] at h
      subst h
      exact get_value_err_zero ls key e n hg hk
    | ok v => rw [hg] at h; simp [Except.map] at h
  | opSet key newv s =>
    simp only [apply_op] at h
    cases hg : set_value_for_key ls key newv s with
    | error e1 =>
      rw [hg] at h
      simp only [Except.map, Except.error.injEq] at h
      subst h
      exact set_value_err_zero ls key newv s e n hg hk
    | ok v => rw [hg] at h; simp [Except.map] at h
  | opRemove key s =>
    simp only [apply_op] at h
    cases hg : remove_key ls key s with
    | error e1 =>
      rw [hg] at h
      simp only [Except.map, Except.error.injEq] at h
      subst h
      exact remove_key_err_zero ls key s e n hg hk
    | ok v => rw [hg] at h; simp [Except.map] at h
  | opImport =>
    simp only [apply_op] at h
    cases hg : import_to_map ls with
    | error e1 =>
      rw [hg] at h
      simp only [Except.map, Except.error.injEq] at h
      subst h
      exact import_err_zero ls e n hg hk
    | ok v => rw [hg] at h; simp [Except.map] at h

theorem apply_op_parse_error (ls : List Line) (op : Op) (e : PErr)
    (h : out_block_parse ls = .error e) : apply_op ls op = .error e := by
  cases op with
  | opGet key =>
    simp [apply_op, (ops_parse_error ls key [] true e h).1, Except.map]
  | opSet key newv s =>
    simp [apply_op, (ops_parse_error ls key newv s e h).2.1, Except.map]
  | opRemove key s =>
    simp [apply_op, (ops_parse_error ls key [] s e h).2.2.1, Except.map]
  | opImport =>
    simp [apply_op, (ops_parse_error ls [] [] true e h).2.2.2, Except.map]

theorem run_op_err_contents (st : FileState) (op : Op) (e : PErr)
    (h : (run_op st op).2 = .error e) :
    (run_op st op).1.contents = st.contents := by
  unfold run_op at h ⊢
  cases hc : st.contents with
  | none => simp
  | some ls =>
    rw [hc] at h
    dsimp only at h ⊢
    rw [h]
    simp [new_contents]

theorem run_op_err_line_eq (st : FileState) (op : Op) :
    (run_op st op).1.err_line = errLineOf (run_op st op).2 := by
  unfold run_op
  cases st.contents <;> simp [errLineOf]

theorem run_op_no_stale (st1 st2 : FileState) (op : Op)
    (h : st1.contents = st2.contents) :
    (run_op st1 op).1.err_line = (run_op st2 op).1.err_line := by
  unfold run_op
  rw [h]

/-- C1: parsing a well-formed ckv document into a Document and
re-serializing it with no mutation yields output byte-identical to the
original input: the serialized line sequence equals the input line
sequence (blank lines, order and indentation preserved verbatim), and
so the rejoined byte streams coincide. -/
theorem ckv_C1_roundtrip (lines : List Line) (doc : Forest)
    (h : out_block_parse lines = .ok doc) :
    serialize_forest doc = lines ∧
      unlines (serialize_forest doc) = unlines lines := by
  have hs := out_parse_serialize lines doc h
  exact ⟨hs, by rw [hs]⟩

/-- Witness for C1 on a concrete document with a blank line. -/
theorem ckv_C1_roundtrip_witness :
    out_block_parse [str "a = 1", str "", str "b =", str "\tc = 2"] =
        .ok (.cons (.leafN (str "a = 1") 0 (str "a") (str "1") 1)
          (.cons (.blankN (str "") 2)
            (.cons (.blockN (str "b =") 0 (str "b")
              (.cons (.leafN (str "\tc = 2") 1 (str "c") (str "2") 4) .nil)
                3) .nil))) ∧
      serialize_forest
          (.cons (.leafN (str "a = 1") 0 (str "a") (str "1") 1)
            (.cons (.blankN (str "") 2)
              (.cons (.blockN (str "b =") 0 (str "b")
                (.cons (.leafN (str "\tc = 2") 1 (str "c") (str "2") 4) .nil)
                  3) .nil))) =
        [str "a = 1", str "", str "b =", str "\tc = 2"] ∧
      unlines (serialize_forest
          (.cons (.leafN (str "a = 1") 0 (str "a") (str "1") 1)
            (.cons (.blankN (str "") 2)
              (.cons (.blockN (str "b =") 0 (str "b")
                (.cons (.leafN (str "\tc = 2") 1 (str "c") (str "2") 4) .nil)
                  3) .nil)))) =
        unlines [str "a = 1", str "", str "b =", str "\tc = 2"] :=
  ⟨rfl, ckv_C1_roundtrip _ _ rfl⟩

/-- C2: for every parseable document and dotted path,
`get_value_for_key` fails with `KeyNotFound` exactly when the path
matches no node's full path; it fails with `NoValueFoundForKey` when
the path is carried by a block node but by no leaf; otherwise it
returns the (last) leaf's scalar value exactly as stored; and
`set_value_for_key` on a path carried by a block but by no leaf fails
with the same `NoValueFoundForKey`. -/
theorem ckv_C2_lookup_errors (lines : List Line) (key newv : Line)
    (doc : Forest)
    (h : out_block_parse lines = .ok doc) :
    (key ∉ all_node_paths doc ↔
        get_value_for_key lines key = .error (.keyNotFound, 0)) ∧
      (key ∉ (forest_entries [] doc).map Prod.fst →
        key ∈ forest_block_paths [] doc →
        get_value_for_key lines key = .error (.noValueFoundForKey, 0) ∧
          set_value_for_key lines key newv true =
            .error (.noValueFoundForKey, 0)) ∧
      (∀ v, find_last (forest_entries [] doc) key = some v →
        get_value_for_key lines key = .ok v) := by
  have hget : get_value_for_key lines key =
      (match find_last (forest_entries [] doc) key with
       | some v => .ok v
       | none =>
         if key ∈ forest_block_paths [] doc then
           .error (.noValueFoundForKey, 0)
         else .error (.keyNotFound, 0)) := by
    unfold get_value_for_key
    rw [h]
  have hset : set_value_for_key lines key newv true =
      (match last_leaf_forest [] key doc with
       | some _ =>
         .ok (serialize_forest (set_last_forest [] key newv doc))
       | none =>
         if key ∈ forest_block_paths [] doc then
           .error (.noValueFoundForKey, 0)
         else .error (.keyNotFound, 0)) := by
    cases hll : last_leaf_forest [] key doc with
    | none => simp only [set_value_for_key, h, hll]
    | some info => simp only [set_value_for_key, h, hll, if_pos]
  refine ⟨?_, ?_, ?_⟩
  · rw [hget]
    constructor
    · intro hnp
      have he : key ∉ (forest_entries [] doc).map Prod.fst :=
        fun hm => hnp (List.mem_append.mpr (Or.inl hm))
      have hb : key ∉ forest_block_paths [] doc :=
        fun hm => hnp (List.mem_append.mpr (Or.inr hm))
      rw [(find_last_none_iff (forest_entries [] doc) key).mpr he]
      simp [hb]
    · intro hg hmem
      rcases List.mem_append.mp hmem with hm | hm
      · cases hf : find_last (forest_entries [] doc) key with
        | some v => rw [hf] at hg; simp at hg
        | none => exact absurd hm ((find_last_none_iff _ _).mp hf)
      · cases hf : find_last (forest_entries [] doc) key with
        | some v => rw [hf] at hg; simp at hg
        | none =>
          rw [hf, if_pos hm] at hg
          simp at hg
  · intro he hb
    have hf : find_last (forest_entries [] doc) key = none :=
      (find_last_none_iff _ _).mpr he
    have hll : last_leaf_forest [] key doc = none := by
      cases hll0 : last_leaf_forest [] key doc with
      | none => rfl
      | some info =>
        have := (last_leaf_forest_isSome doc [] key).mp (by rw [hll0]; rfl)
        exact absurd this he
    constructor
    · rw [hget, hf, if_pos hb]
    · rw [hset, hll]
      dsimp only
      rw [if_pos hb]
  · intro v hv
    rw [hget, hv]

/-- Witness for C2 on the example document at the block path "b". -/
theorem ckv_C2_lookup_errors_witness :
    out_block_parse [str "a = 1", str "b =", str "\tc = 2"] =
        .ok (.cons (.leafN (str "a = 1") 0 (str "a") (str "1") 1)
          (.cons (.blockN (str "b =") 0 (str "b")
            (.cons (.leafN (str "\tc = 2") 1 (str "c") (str "2") 3) .nil) 2)
            .nil)) ∧
      ((str "b" ∉ all_node_paths
          (.cons (.leafN (str "a = 1") 0 (str "a") (str "1") 1)
            (.cons (.blockN (str "b =") 0 (str "b")
              (.cons (.leafN (str "\tc = 2") 1 (str "c") (str "2") 3) .nil)
                2) .nil)) ↔
        get_value_for_key [str "a = 1", str "b =", str "\tc = 2"] (str "b") =
          .error (.keyNotFound, 0)) ∧
      (str "b" ∉ (forest_entries []
          (.cons (.leafN (str "a = 1") 0 (str "a") (str "1") 1)
            (.cons (.blockN (str "b =") 0 (str "b")
              (.cons (.leafN (str "\tc = 2") 1 (str "c") (str "2") 3) .nil)
                2) .nil))).map Prod.fst →
        str "b" ∈ forest_block_paths []
          (.cons (.leafN (str "a = 1") 0 (str "a") (str "1") 1)
            (.cons (.blockN (str "b =") 0 (str "b")
              (.cons (.leafN (str "\tc = 2") 1 (str "c") (str "2") 3) .nil)
                2) .nil)) →
        get_value_for_key [str "a = 1", str "b =", str "\tc = 2"]
            (str "b") = .error (.noValueFoundForKey, 0) ∧
          set_value_for_key [str "a = 1", str "b =", str "\tc = 2"]
            (str "b") (str "9") true = .error (.noValueFoundForKey, 0)) ∧
      (∀ v, find_last (forest_entries []
          (.cons (.leafN (str "a = 1") 0 (str "a") (str "1") 1)
            (.cons (.blockN (str "b =") 0 (str "b")
              (.cons (.leafN (str "\tc = 2") 1 (str "c") (str "2") 3) .nil)
                2) .nil))) (str "b") = some v →
        get_value_for_key [str "a = 1", str "b =", str "\tc = 2"]
          (str "b") = .ok v)) :=
  ⟨rfl, ckv_C2_lookup_errors _ _ (str "9") _ rfl⟩

/-- C3: the flattened map of a well-formed document has duplicate-free
keys, its lookup agrees with the last (document-order) leaf entry at
every dotted path (so each leaf contributes exactly one entry, blocks
contribute none, and later duplicates win with no error), and the
example document flattens to exactly {"a" ↦ "1", "b.c" ↦ "2"}. -/
theorem ckv_C3_import_map (lines : List Line) (doc : Forest)
    (_h : out_block_parse lines = .ok doc) :
    ((doc_map doc).map Prod.fst).Nodup ∧
      (∀ p, map_lookup (doc_map doc) p =
        find_last (forest_entries [] doc) p) ∧
      (∀ p, (map_lookup (doc_map doc) p).isSome = true ↔
        p ∈ (forest_entries [] doc).map Prod.fst) ∧
      import_to_map [str "a = 1", str "b =", str "\tc = 2"] =
        .ok [(str "a", str "1"), (str "b.c", str "2")] := by
  refine ⟨doc_map_keys_nodup doc, fun p => doc_map_lookup doc p, ?_, rfl⟩
  intro p
  rw [doc_map_lookup]
  cases hf : find_last (forest_entries [] doc) p with
  | none =>
    simp only [Option.isSome_none, Bool.false_eq_true, false_iff]
    exact (find_last_none_iff _ _).mp hf
  | some v =>
    simp only [Option.isSome_some, true_iff]
    have hne : find_last (forest_entries [] doc) p ≠ none := by
      rw [hf]
      simp
    have := (not_iff_not.mpr (find_last_none_iff (forest_entries [] doc) p)).mp hne
    exact Decidable.not_not.mp this

/-- Witness for C3 on the example document. -/
theorem ckv_C3_import_map_witness :
    out_block_parse [str "a = 1", str "b =", str "\tc = 2"] =
        .ok (.cons (.leafN (str "a = 1") 0 (str "a") (str "1") 1)
          (.cons (.blockN (str "b =") 0 (str "b")
            (.cons (.leafN (str "\tc = 2") 1 (str "c") (str "2") 3) .nil) 2)
            .nil)) ∧
      (((doc_map (.cons (.leafN (str "a = 1") 0 (str "a") (str "1") 1)
          (.cons (.blockN (str "b =") 0 (str "b")
            (.cons (.leafN (str "\tc = 2") 1 (str "c") (str "2") 3) .nil) 2)
            .nil))).map Prod.fst).Nodup ∧
        (∀ p, map_lookup (doc_map
            (.cons (.leafN (str "a = 1") 0 (str "a") (str "1") 1)
              (.cons (.blockN (str "b =") 0 (str "b")
                (.cons (.leafN (str "\tc = 2") 1 (str "c") (str "2") 3) .nil)
                  2) .nil))) p =
          find_last (forest_entries []
            (.cons (.leafN (str "a = 1") 0 (str "a") (str "1") 1)
              (.cons (.blockN (str "b =") 0 (str "b")
                (.cons (.leafN (str "\tc = 2") 1 (str "c") (str "2") 3) .nil)
                  2) .nil))) p) ∧
        (∀ p, (map_lookup (doc_map
            (.cons (.leafN (str "a = 1") 0 (str "a") (str "1") 1)
              (.cons (.blockN (str "b =") 0 (str "b")
                (.cons (.leafN (str "\tc = 2") 1 (str "c") (str "2") 3) .nil)
                  2) .nil))) p).isSome = true ↔
          p ∈ (forest_entries []
            (.cons (.leafN (str "a = 1") 0 (str "a") (str "1") 1)
              (.cons (.blockN (str "b =") 0 (str "b")
                (.cons (.leafN (str "\tc = 2") 1 (str "c") (str "2") 3) .nil)
                  2) .nil))).map Prod.fst) ∧
        import_to_map [str "a = 1", str "b =", str "\tc = 2"] =
          .ok [(str "a", str "1"), (str "b.c", str "2")]) :=
  ⟨rfl, ckv_C3_import_map [str "a = 1", str "b =", str "\tc = 2"] _ rfl⟩

/-- C4: `set_value_for_key` on a path resolving to a leaf emits every
line not belonging to that leaf byte-identical to the source, in
original order, and re-emits only the leaf's line as its original
indentation (the leaf's recorded indent is the count of leading tabs of
its raw line), its key token, " = " and the new value; on the example
document, setting "b.c" to "9" yields exactly the expected output. -/
theorem ckv_C4_set_frame (lines : List Line) (key newv : Line)
    (doc : Forest) (info : LeafInfo) (out : List Line)
    (h : out_block_parse lines = .ok doc)
    (hleaf : last_leaf_forest [] key doc = some info)
    (hout : set_value_for_key lines key newv true = .ok out) :
    countTabs info.raw = info.indent ∧
      (∃ i, lines[i]? = some info.raw ∧
        out = lines.set i (kv_line info.indent info.key newv)) ∧
      set_value_for_key [str "a = 1", str "b =", str "\tc = 2"] (str "b.c")
        (str "9") true = .ok [str "a = 1", str "b =", str "\tc = 9"] := by
  have hraws := out_block_parse_raws lines doc h
  have hct := last_leaf_forest_raws doc [] key info hraws hleaf
  have hser := out_parse_serialize lines doc h
  have hval : set_value_for_key lines key newv true =
      .ok (serialize_forest (set_last_forest [] key newv doc)) := by
    simp only [set_value_for_key, h, hleaf, if_pos]
  rw [hval] at hout
  simp only [Except.ok.injEq] at hout
  obtain ⟨i, hget, hset⟩ := set_last_forest_ser doc [] key newv info hleaf
  rw [hser] at hget hset
  refine ⟨hct, ⟨i, hget, ?_⟩, rfl⟩
  rw [← hout]
  exact hset

/-- Witness for C4: setting "b.c" to "9" on the example document. -/
theorem ckv_C4_set_frame_witness :
    out_block_parse [str "a = 1", str "b =", str "\tc = 2"] =
        .ok (.cons (.leafN (str "a = 1") 0 (str "a") (str "1") 1)
          (.cons (.blockN (str "b =") 0 (str "b")
            (.cons (.leafN (str "\tc = 2") 1 (str "c") (str "2") 3) .nil) 2)
            .nil)) ∧
      last_leaf_forest [] (str "b.c")
          (.cons (.leafN (str "a = 1") 0 (str "a") (str "1") 1)
            (.cons (.blockN (str "b =") 0 (str "b")
              (.cons (.leafN (str "\tc = 2") 1 (str "c") (str "2") 3) .nil)
                2) .nil)) =
        some ⟨str "\tc = 2", 1, str "c", str "2", 3⟩ ∧
      set_value_for_key [str "a = 1", str "b =", str "\tc = 2"] (str "b.c")
          (str "9") true = .ok [str "a = 1", str "b =", str "\tc = 9"] ∧
      (countTabs (str "\tc = 2") = 1 ∧
        (∃ i, [str "a = 1", str "b =", str "\tc = 2"][i]? =
            some (str "\tc = 2") ∧
          [str "a = 1", str "b =", str "\tc = 9"] =
            [str "a = 1", str "b =", str "\tc = 2"].set i
              (kv_line 1 (str "c") (str "9"))) ∧
        set_value_for_key [str "a = 1", str "b =", str "\tc = 2"]
          (str "b.c") (str "9") true =
            .ok [str "a = 1", str "b =", str "\tc = 9"]) :=
  ⟨rfl, rfl, rfl,
    ckv_C4_set_frame [str "a = 1", str "b =", str "\tc = 2"] (str "b.c")
      (str "9") _ ⟨str "\tc = 2", 1, str "c", str "2", 3⟩
      [str "a = 1", str "b =", str "\tc = 9"] rfl rfl rfl⟩

/-- C5: `remove_key` fails with `KeyNotFound` exactly when the path is
carried by no node; otherwise it removes the located node together with
its entire subtree while emitting all remaining lines byte-identically
in original order; removing "b" from the example document leaves only
"a = 1". -/
theorem ckv_C5_remove (lines : List Line) (key : Line) (doc : Forest)
    (h : out_block_parse lines = .ok doc) :
    (key ∉ all_node_paths doc ↔
        remove_key lines key true = .error (.keyNotFound, 0)) ∧
      (∀ t out, last_node_f [] key doc = some t →
        remove_key lines key true = .ok out →
        ∃ pre post, lines = pre ++ serialize_node t ++ post ∧
          out = pre ++ post) ∧
      remove_key [str "a = 1", str "b =", str "\tc = 2"] (str "b") true =
        .ok [str "a = 1"] := by
  have hser := out_parse_serialize lines doc h
  refine ⟨⟨?_, ?_⟩, ?_, rfl⟩
  · intro hnp
    have hnone : last_node_f [] key doc = none := by
      cases hl : last_node_f [] key doc with
      | none => rfl
      | some t =>
        have hm := (last_node_f_mem doc [] key).mp (by rw [hl]; rfl)
        rcases hm with hm | hm
        · exact absurd (List.mem_append.mpr (Or.inl hm)) hnp
        · exact absurd (List.mem_append.mpr (Or.inr hm)) hnp
    simp only [remove_key, h, hnone]
  · intro hr hmem
    have hs : (last_node_f [] key doc).isSome = true := by
      rcases List.mem_append.mp hmem with hm | hm
      · exact (last_node_f_mem doc [] key).mpr (Or.inl hm)
      · exact (last_node_f_mem doc [] key).mpr (Or.inr hm)
    cases hl : last_node_f [] key doc with
    | none => rw [hl] at hs; simp at hs
    | some t =>
      have hok : remove_key lines key true =
          .ok (serialize_forest (remove_last_f [] key doc)) := by
        simp only [remove_key, h, hl, if_pos]
      rw [hok] at hr
      simp at hr
  · intro t out hl hout
    have hok : remove_key lines key true =
        .ok (serialize_forest (remove_last_f [] key doc)) := by
      simp only [remove_key, h, hl, if_pos]
    rw [hok] at hout
    simp only [Except.ok.injEq] at hout
    obtain ⟨pre, post, hdec, hrem⟩ := remove_last_f_ser doc [] key t hl
    rw [hser] at hdec
    refine ⟨pre, post, hdec, ?_⟩
    rw [← hout]
    exact hrem

/-- Witness for C5 on the example document. -/
theorem ckv_C5_remove_witness :
    out_block_parse [str "a = 1", str "b =", str "\tc = 2"] =
        .ok (.cons (.leafN (str "a = 1") 0 (str "a") (str "1") 1)
          (.cons (.blockN (str "b =") 0 (str "b")
            (.cons (.leafN (str "\tc = 2") 1 (str "c") (str "2") 3) .nil) 2)
            .nil)) ∧
      ((str "zz" ∉ all_node_paths
          (.cons (.leafN (str "a = 1") 0 (str "a") (str "1") 1)
            (.cons (.blockN (str "b =") 0 (str "b")
              (.cons (.leafN (str "\tc = 2") 1 (str "c") (str "2") 3) .nil)
                2) .nil)) ↔
        remove_key [str "a = 1", str "b =", str "\tc = 2"] (str "zz") true =
          .error (.keyNotFound, 0)) ∧
        (∀ t out, last_node_f [] (str "zz")
            (.cons (.leafN (str "a = 1") 0 (str "a") (str "1") 1)
              (.cons (.blockN (str "b =") 0 (str "b")
                (.cons (.leafN (str "\tc = 2") 1 (str "c") (str "2") 3) .nil)
                  2) .nil)) = some t →
          remove_key [str "a = 1", str "b =", str "\tc = 2"] (str "zz")
            true = .ok out →
          ∃ pre post, [str "a = 1", str "b =", str "\tc = 2"] =
              pre ++ serialize_node t ++ post ∧ out = pre ++ post) ∧
        remove_key [str "a = 1", str "b =", str "\tc = 2"] (str "b") true =
          .ok [str "a = 1"]) :=
  ⟨rfl, ckv_C5_remove [str "a = 1", str "b =", str "\tc = 2"] (str "zz")
    _ rfl⟩

/-- C6: parsing the one-line input "\tfoo = 1" (indented content with
no enclosing key) fails with `ValueWithoutAKey` at line 1, and parsing
the one-line input "= 5" ('=' with an empty key token) fails with
`EqualToWithoutAKey` at line 1. -/
theorem ckv_C6_error_lines :
    out_block_parse [str "\tfoo = 1"] = .error (.valueWithoutAKey, 1) ∧
      out_block_parse [str "= 5"] = .error (.equalToWithoutAKey, 1) :=
  ⟨rfl, rfl⟩

/-- C7: parsing is all-or-nothing: on malformed input every operation
fails with the first structural error, producing no map and no output
lines, and a failed operation on the bound file never changes the
file's content (the in-place overload rewrites the file only after the
whole mutation succeeded in memory). -/
theorem ckv_C7_all_or_nothing (ls : List Line) (key newv : Line) (s : Bool)
    (e : PErr) (hp : out_block_parse ls = .error e) :
    (get_value_for_key ls key = .error e ∧
      set_value_for_key ls key newv s = .error e ∧
      remove_key ls key s = .error e ∧
      import_to_map ls = .error e) ∧
      (∀ (st : FileState) (op : Op) (e2 : PErr),
        (run_op st op).2 = .error e2 →
        (run_op st op).1.contents = st.contents) :=
  ⟨ops_parse_error ls key newv s e hp,
   fun st op e2 h2 => run_op_err_contents st op e2 h2⟩

/-- Witness for C7 on the malformed input "= 5". -/
theorem ckv_C7_all_or_nothing_witness :
    out_block_parse [str "= 5"] = .error (.equalToWithoutAKey, 1) ∧
      ((get_value_for_key [str "= 5"] (str "a") =
          .error (.equalToWithoutAKey, 1) ∧
        set_value_for_key [str "= 5"] (str "a") (str "1") true =
          .error (.equalToWithoutAKey, 1) ∧
        remove_key [str "= 5"] (str "a") true =
          .error (.equalToWithoutAKey, 1) ∧
        import_to_map [str "= 5"] = .error (.equalToWithoutAKey, 1)) ∧
        (∀ (st : FileState) (op : Op) (e2 : PErr),
          (run_op st op).2 = .error e2 →
          (run_op st op).1.contents = st.contents)) :=
  ⟨rfl, ckv_C7_all_or_nothing [str "= 5"] (str "a") (str "1") true
    (.equalToWithoutAKey, 1) rfl⟩

/-- C8: the error-line tracker is overwritten on every operation from
that operation's outcome alone (so a stale line number from an earlier
call is never reported), it equals the failing line number whenever the
parse of the bound content fails structurally, and it is 0 for
`FileOpenFailed`, `InvalidOutputStream` and `KeyNotFound` failures (and
on success). -/
theorem ckv_C8_err_line_tracker :
    (∀ (st1 st2 : FileState) (op : Op), st1.contents = st2.contents →
      (run_op st1 op).1.err_line = (run_op st2 op).1.err_line) ∧
      (∀ (st : FileState) (op : Op),
        (run_op st op).1.err_line = errLineOf (run_op st op).2) ∧
      (∀ (st : FileState) (op : Op) (ls : List Line) (e : CkvErr) (n : Nat),
        st.contents = some ls → out_block_parse ls = .error (e, n) →
        (run_op st op).1.err_line = n) ∧
      (∀ (st : FileState) (op : Op) (e : CkvErr) (n : Nat),
        (run_op st op).2 = .error (e, n) →
        (e = .fileOpenFailed ∨ e = .invalidOutputStream ∨
          e = .keyNotFound) →
        (run_op st op).1.err_line = 0) := by
  refine ⟨run_op_no_stale, run_op_err_line_eq, ?_, ?_⟩
  · intro st op ls e n hc hp
    have hap : apply_op ls op = .error (e, n) :=
      apply_op_parse_error ls op (e, n) hp
    unfold run_op
    rw [hc]
    dsimp only
    rw [hap]
    simp [errLineOf]
  · intro st op e n h2 hk
    rw [run_op_err_line_eq st op, h2]
    have hn : n = 0 := by
      cases hc : st.contents with
      | none =>
        unfold run_op at h2
        rw [hc] at h2
        dsimp only at h2
        simp only [Except.error.injEq, Prod.mk.injEq] at h2
        omega
      | some ls =>
        unfold run_op at h2
        rw [hc] at h2
        dsimp only at h2
        exact apply_op_err_zero ls op e n h2 hk
    simp [errLineOf, hn]

/-- Witness for C8: a structural error at line 1 sets the tracker to 1
even when a stale value 7 was stored before the call. -/
theorem ckv_C8_err_line_tracker_witness :
    ({ contents := some [str "= 5"], err_line := 7 } : FileState).contents =
        some [str "= 5"] ∧
      out_block_parse [str "= 5"] = .error (.equalToWithoutAKey, 1) ∧
      (run_op { contents := some [str "= 5"], err_line := 7 }
          (.opGet (str "a"))).1.err_line = 1 :=
  ⟨rfl, rfl,
    (ckv_C8_err_line_tracker).2.2.1
      { contents := some [str "= 5"], err_line := 7 } (.opGet (str "a"))
      [str "= 5"] .equalToWithoutAKey 1 rfl rfl⟩

/-- C9 counterexample: the claim fails as stated.  The one-line
document "a=1" is well-formed and its leaf "a" stores the value "1",
but re-setting "a" to "1" re-emits the modified line canonically as
"a = 1", so the output is not byte-identical to the source. -/
theorem ckv_C9_counterexample :
    get_value_for_key [str "a=1"] (str "a") = .ok (str "1") ∧
      set_value_for_key [str "a=1"] (str "a") (str "1") true =
        .ok [str "a = 1"] ∧
      set_value_for_key [str "a=1"] (str "a") (str "1") true ≠
        .ok [str "a=1"] := by
  refine ⟨rfl, rfl, ?_⟩
  intro hcon
  rw [show set_value_for_key [str "a=1"] (str "a") (str "1") true =
      .ok [str "a = 1"] from rfl] at hcon
  simp only [Except.ok.injEq] at hcon
  exact absurd hcon (by decide)

/-- C9 (amended): setting a leaf's value to its current value leaves
the serialized output byte-identical to the source whenever the leaf's
source line is already in the canonical form
`<indentation><key> = <value>`; for a non-canonical leaf line (legal
spacing variations such as "a=1") the operation rewrites exactly that
line canonically, so the output differs from the source there. -/
theorem ckv_C9_set_idempotent_canonical (lines : List Line) (key : Line)
    (doc : Forest) (info : LeafInfo)
    (h : out_block_parse lines = .ok doc)
    (hleaf : last_leaf_forest [] key doc = some info)
    (hcanon : info.raw = kv_line info.indent info.key info.val) :
    set_value_for_key lines key info.val true = .ok lines := by
  obtain ⟨i, hget, hset⟩ := set_last_forest_ser doc [] key info.val info hleaf
  rw [out_parse_serialize lines doc h] at hget hset
  have hval : set_value_for_key lines key info.val true =
      .ok (serialize_forest (set_last_forest [] key info.val doc)) := by
    simp only [set_value_for_key, h, hleaf, if_pos]
  rw [hval, hset, ← hcanon, set_self_of_get lines i info.raw hget]

/-- Witness for C9 (amended) on the canonical document "a = 1". -/
theorem ckv_C9_set_idempotent_canonical_witness :
    out_block_parse [str "a = 1"] =
        .ok (.cons (.leafN (str "a = 1") 0 (str "a") (str "1") 1) .nil) ∧
      last_leaf_forest [] (str "a")
          (.cons (.leafN (str "a = 1") 0 (str "a") (str "1") 1) .nil) =
        some ⟨str "a = 1", 0, str "a", str "1", 1⟩ ∧
      str "a = 1" = kv_line 0 (str "a") (str "1") ∧
      set_value_for_key [str "a = 1"] (str "a") (str "1") true =
        .ok [str "a = 1"] :=
  ⟨rfl, rfl, rfl,
    ckv_C9_set_idempotent_canonical [str "a = 1"] (str "a") _
      ⟨str "a = 1", 0, str "a", str "1", 1⟩ rfl rfl rfl⟩

/-- C10 (code bug): `get_file_path` returns exactly the constructor's
path argument, but `get_err_line` immediately after construction does
not return the no-error sentinel 0: the C++ constructor
(`ckv.hpp` line 42) initializes only `file_path` and `err_line_no`
(line 26) has no initializer, so its value is indeterminate (modelled
as `none`) rather than the documented sentinel. -/
theorem ckv_C10_ctor_uninit_err_line (p : String) :
    get_file_path (ConfigFile.construct p) = p ∧
      get_err_line (ConfigFile.construct p) = none ∧
      get_err_line (ConfigFile.construct p) ≠ some 0 :=
  ⟨rfl, rfl, by simp [get_err_line, ConfigFile.construct]⟩

end Ckv
